import Mathlib

/-!
Verification development for the numerical core of `etsformer_pytorch.py`
(an exponential-smoothing transformer for time-series forecasting).

Tensors are modelled as (nested) lists of real numbers; the float
arithmetic of the source is modelled by exact real arithmetic, so the
source's "equal within floating tolerance" becomes exact equality here.
Dropout layers are modelled in evaluation mode (identity), which is the
mode in which the source's numerical-equality contracts are stated.
The learned parameters of each module are passed explicitly as arguments;
the source stores them as module state mutated only by an (out-of-scope)
optimizer.

All list-indexed reads use `List.getD` with default `0`, mirroring how the
source's tensor reads are always in bounds in well-shaped calls; the
definitions stay total on arbitrary lists.
-/

/-- Fuel-bounded repeated division: `divOutAux p fuel n` divides `n` by `p`
while `p` divides `n`.  Fuel `n` is always enough since `n` strictly
decreases at each division step. -/
def divOutAux (p : ℕ) : ℕ → ℕ → ℕ
  | 0, n => n
  | fuel + 1, n => if 2 ≤ p ∧ n ≠ 0 ∧ n % p = 0 then divOutAux p fuel (n / p) else n

/-- A positive integer is 5-smooth when removing all factors 2, 3, 5 leaves 1. -/
def isFiveSmooth (n : ℕ) : Bool :=
  divOutAux 5 n (divOutAux 3 n (divOutAux 2 n n)) = 1

/-- Fuel-bounded upward search for a 5-smooth number. -/
def nextFastLenAux : ℕ → ℕ → ℕ
  | 0, k => k
  | fuel + 1, k => if isFiveSmooth k then k else nextFastLenAux fuel (k + 1)

/-- Model of `scipy.fftpack.next_fast_len`: the smallest 5-smooth integer
that is at least the target (scipy returns targets `≤ 6` unchanged, since
they are already fast sizes).  The only property the correctness proofs
use is `nextFastLen_ge`; concrete values are computed by the kernel. -/
def nextFastLen (n : ℕ) : ℕ := if n ≤ 6 then n else nextFastLenAux n n

/-- Exact-arithmetic value of `conv1d_fft` (source, lines 51-68) on a single
scalar time series: frequency-domain multiplication of the signal's
transform with the conjugate of the kernel's transform is circular
cross-correlation of signal and kernel at length `L = nextFastLen (N+M-1)`.
The circular-correlation bucket `m` collects the products `x[j] * w[i]` with
`j - i ≡ m (mod L)` (written `(L + j - i) % L = m` to stay in `ℕ`: `i < L`
makes `L + j - i` non-negative and congruent to `j - i`).  The source then
rolls the inverse transform by one step and keeps the last `N` indices, so
output index `t` reads bucket `(L - N + t + 1) % L`.  The theorem
`conv1d_fft_eq_corr` below proves this equal to the literal
rfft/conjugate-multiply/irfft/roll/select pipeline `conv1d_fft`. -/
noncomputable def conv1d_fftCorr (x w : List ℝ) : List ℝ :=
  (List.range x.length).map fun t =>
    ∑ j ∈ Finset.range x.length, ∑ i ∈ Finset.range w.length,
      if (nextFastLen (x.length + w.length - 1) + j - i) %
            nextFastLen (x.length + w.length - 1) =
          (nextFastLen (x.length + w.length - 1) - x.length + t + 1) %
            nextFastLen (x.length + w.length - 1)
      then x.getD j 0 * w.getD i 0 else 0

/-- The circular gather index of `MHESA.naive_Aes` (source, line 100): the
Python expression `(s - (t + 1)) % n` on integers, with the Python
(Euclidean, non-negative) remainder modelled by `Int.emod`. -/
def gatherIndex (n t s : ℕ) : ℕ := (((s : ℤ) - (t + 1)) % (n : ℤ)).toNat

/-- Entry `(t, s)` of the per-head weight matrix built by `MHESA.naive_Aes`
(source, lines 95-107): the kernel `w` gathered at the circular index
`(s - (t+1)) mod n`, then lower-triangular masking (`weights.tril()`)
zeroing every entry with `s > t`.  The dropout between gather and mask is
modelled in evaluation mode (identity). -/
def naiveWeightsMatrix (w : List ℝ) (n t s : ℕ) : ℝ :=
  if s ≤ t then w.getD (gatherIndex n t s) 0 else 0

/-- The einsum of `MHESA.naive_Aes` (source, line 111) on a single scalar
time series: output time `t` is the masked-gathered-weight combination of
the input times. -/
noncomputable def naiveAesSeries (x w : List ℝ) : List ℝ :=
  (List.range x.length).map fun t =>
    ∑ s ∈ Finset.range x.length, naiveWeightsMatrix w x.length t s * x.getD s 0

/-- The unit-circle point `exp (2 pi i m / L)` used by the discrete Fourier
transform of length `L`. -/
noncomputable def expUnit (L : ℕ) (m : ℤ) : ℂ :=
  Complex.exp (2 * Real.pi * Complex.I * m / L)

/-- Full-period discrete Fourier coefficient of a real list zero-padded (or
truncated) to length `L`, at an arbitrary integer frequency `k`. -/
noncomputable def dftPoint (x : List ℝ) (L : ℕ) (k : ℤ) : ℂ :=
  ∑ t ∈ Finset.range L, (x.getD t 0 : ℂ) * expUnit L (-(t * k))

/-- Model of `torch.fft.rfft(x, n)` on a scalar series: the first
`n / 2 + 1` Fourier coefficients of the signal zero-padded (or truncated)
to length `n`. -/
noncomputable def rfft (x : List ℝ) (n : ℕ) : List ℂ :=
  (List.range (n / 2 + 1)).map fun k : ℕ => dftPoint x n (k : ℤ)

/-- Model of `torch.fft.irfft(s, m)` on a scalar half-spectrum `s`: the
half-spectrum is extended to a full length-`m` spectrum by conjugate
symmetry (`S[k] = conj S[m - k]` for `k` at or beyond the stored bins), the
inverse transform is applied, and the real part is returned (the
real-output contract of a complex-to-real inverse transform). -/
noncomputable def irfft (s : List ℂ) (m : ℕ) : List ℝ :=
  (List.range m).map fun t : ℕ =>
    (((m : ℂ))⁻¹ * ∑ k ∈ Finset.range m,
      (if k < s.length then s.getD k 0 else (starRingEnd ℂ) (s.getD (m - k) 0)) *
        expUnit m ((t : ℤ) * (k : ℤ))).re

/-- Model of `conv1d_fft` (source, lines 51-68) on a single scalar time
series: transforms at the fast length `L = nextFastLen (N + M - 1)`,
pointwise multiplication of the signal's spectrum by the conjugate of the
kernel's spectrum, inverse transform, circular roll by one step
(`out.roll(-1)`), and selection of the last `N` time indices
(`index_select` with `arange(L - N, L)`). -/
noncomputable def conv1d_fft (x w : List ℝ) : List ℝ :=
  let N := x.length
  let M := w.length
  let L := nextFastLen (N + M - 1)
  let f_x := rfft x L
  let f_w := rfft w L
  let f_v := List.zipWith (fun a b => a * (starRingEnd ℂ) b) f_x f_w
  let out := irfft f_v L
  let rolled := (List.range L).map fun p => out.getD ((p + 1) % L) 0
  (List.range N).map fun t => rolled.getD (L - N + t) 0

/-- Channel count of a `time × channel` matrix, read off its first row (how
the broadcasting shape of the source is determined by well-shaped inputs). -/
def rowWidth (rows : List (List ℝ)) : ℕ := (rows.getD 0 []).length

/-- Column `e` of a `time × channel` matrix, as a scalar time series. -/
def colSeries (rows : List (List ℝ)) (e : ℕ) : List ℝ :=
  rows.map fun r => r.getD e 0

/-- `conv1d_fft` applied along the time axis (`dim = -2`) of a
`time × channel` matrix against one weight vector: the source's spectrum
product broadcasts the kernel spectrum over the trailing channel dimension,
so each channel is convolved with the same kernel. -/
noncomputable def conv1d_fftMat (rows : List (List ℝ)) (w : List ℝ) : List (List ℝ) :=
  (List.range rows.length).map fun t =>
    (List.range (rowWidth rows)).map fun e =>
      (conv1d_fft (colSeries rows e) w).getD t 0

/-- The `einsum('b h n d, h m n -> b h m d')` of `MHESA.naive_Aes` on a
`time × channel` matrix for one head: output `[t][e]` combines the input
times with the masked gathered weight matrix. -/
noncomputable def naiveAesMat (rows : List (List ℝ)) (w : List ℝ) : List (List ℝ) :=
  (List.range rows.length).map fun t =>
    (List.range (rowWidth rows)).map fun e =>
      ∑ s ∈ Finset.range rows.length,
        naiveWeightsMatrix w rows.length t s * (rows.getD s []).getD e 0

/-- The logistic sigmoid `torch.sigmoid`, applied by the source to its raw
learned coefficients before they are used as smoothing weights. -/
noncomputable def sigmoid (z : ℝ) : ℝ := 1 / (1 + Real.exp (-z))

/-- The decay-weight vector of `MHESA.forward` (source, lines 141-142) for
one head with (post-sigmoid) coefficient `a` and time length `n`:
`a * (1 - a) ** flip(arange(n))`, so entry `k` carries the reversed power
`n - 1 - k` and the most recent step is weighted by `a` itself. -/
noncomputable def smoothingWeights (a : ℝ) (n : ℕ) : List ℝ :=
  (List.range n).reverse.map fun p => a * (1 - a) ^ p

/-- The initial-state decay vector of `MHESA.forward` (source, line 151):
`(1 - a) ** (arange(n) + 1)`. -/
noncomputable def initWeights (a : ℝ) (n : ℕ) : List ℝ :=
  (List.range n).map fun p => (1 - a) ^ (p + 1)

/-- Forward pass of `nn.Linear` with weight matrix `W` (out rows of in
entries) and bias `b`. -/
noncomputable def linearForward (W : List (List ℝ)) (b : List ℝ) (v : List ℝ) : List ℝ :=
  (List.range W.length).map fun o =>
    (∑ c ∈ Finset.range (W.getD o []).length, (W.getD o []).getD c 0 * v.getD c 0) +
      b.getD o 0

/-- Head `h` of a projected feature row, `rearrange 'b n (h d) -> b h n d'`. -/
def headSlice (dimHead h : ℕ) (r : List ℝ) : List ℝ := (r.drop (h * dimHead)).take dimHead

/-- Temporal differencing against the learned initial state (source, lines
127-132): the initial state is prepended and consecutive differences are
taken, so row `0` is `x_0 - init` and row `t` is `x_t - x_(t-1)`. -/
def temporalDiff (init : List ℝ) (rows : List (List ℝ)) : List (List ℝ) :=
  List.zipWith (fun cur prev => List.zipWith (fun a b => a - b) cur prev)
    rows (init :: rows)

/-- The branch on the `naive` flag in `MHESA.forward` (source, lines
144-147): the gather-and-mask quadratic path or the FFT path. -/
noncomputable def aesPath (naive : Bool) (rows : List (List ℝ)) (w : List ℝ) :
    List (List ℝ) :=
  if naive then naiveAesMat rows w else conv1d_fftMat rows w

/-- Learned parameters of `MHESA` (source, lines 70-88): head count, head
width, per-head initial state, per-head raw (pre-sigmoid) smoothing
coefficient, and both linear projections. -/
structure MHESAParams where
  heads : ℕ
  dimHead : ℕ
  initialState : List (List ℝ)
  alpha : List ℝ
  projInW : List (List ℝ)
  projInB : List ℝ
  projOutW : List (List ℝ)
  projOutB : List ℝ

/-- `MHESA.forward` (source, lines 114-159) on one batch element
(`time × model-dim` matrix): project in, split heads, temporal difference
against the initial state, smooth each head's differenced series along time
by the chosen path, add the decayed initial-state contribution, merge heads
and project out.  The `naive` flag selects the quadratic reference path
instead of the FFT path. -/
noncomputable def mhesaForwardOne (p : MHESAParams) (x : List (List ℝ))
    (naive : Bool) : List (List ℝ) :=
  let n := x.length
  let projRows := x.map (linearForward p.projInW p.projInB)
  let merged := (List.range n).map fun t =>
    ((List.range p.heads).map fun h =>
      let hrows := projRows.map (headSlice p.dimHead h)
      let drows := temporalDiff (p.initialState.getD h []) hrows
      let a := sigmoid (p.alpha.getD h 0)
      let pathOut := aesPath naive drows (smoothingWeights a n)
      (List.range p.dimHead).map fun e =>
        (pathOut.getD t []).getD e 0 +
          (initWeights a n).getD t 0 * (p.initialState.getD h []).getD e 0).flatten
  merged.map (linearForward p.projOutW p.projOutB)

/-- `MHESA.forward` on a batched input, mapping the per-element forward over
the batch dimension. -/
noncomputable def mhesaForward (p : MHESAParams) (x : List (List (List ℝ)))
    (naive : Bool) : List (List (List ℝ)) :=
  x.map fun mat => mhesaForwardOne p mat naive

/-- Elementwise difference of two `time × channel` matrices. -/
def matSub (a b : List (List ℝ)) : List (List ℝ) :=
  List.zipWith (fun r1 r2 => List.zipWith (fun u v => u - v) r1 r2) a b

/-- Elementwise sum of two `time × channel` matrices. -/
def matAdd (a b : List (List ℝ)) : List (List ℝ) :=
  List.zipWith (fun r1 r2 => List.zipWith (fun u v => u + v) r1 r2) a b

/-- Learned parameters of `Level` (source, lines 196-201): the raw scalar
smoothing parameter (initialised to `0.` in the source) and the growth and
seasonal output projections. -/
structure LevelParams where
  alpha : ℝ
  toGrowthW : List (List ℝ)
  toGrowthB : List ℝ
  toSeasonalW : List (List ℝ)
  toSeasonalB : List ℝ

set_option linter.unusedVariables false in
/-- `Level.forward` (source, lines 203-225) on one batch element.  The
source computes `growth = self.to_growth(latent_growth)` and
`growth_smoothing_weights = (1 - alpha) ** powers` but then uses neither:
the returned value is `conv1d_fft(x - seasonal, Aes_weights) +
conv1d_fft(x, Aes_weights)`.  Both dead computations are reproduced here
(bound and then discarded, exactly as in the source). -/
noncomputable def levelForwardOne (p : LevelParams)
    (x latentGrowth latentSeasonal : List (List ℝ)) : List (List ℝ) :=
  let n := x.length
  let a := sigmoid p.alpha
  let seasonal := latentSeasonal.map (linearForward p.toSeasonalW p.toSeasonalB)
  let aesWeights := smoothingWeights a n
  let seasonalNormalizedTerm := conv1d_fftMat (matSub x seasonal) aesWeights
  let growth := latentGrowth.map (linearForward p.toGrowthW p.toGrowthB)
  let growthSmoothingWeights := (List.range n).reverse.map fun q => (1 - a) ^ q
  let growthTerm := conv1d_fftMat x aesWeights
  matAdd seasonalNormalizedTerm growthTerm

/-- `Level.forward` on a batched input. -/
noncomputable def levelForward (p : LevelParams)
    (x latentGrowth latentSeasonal : List (List (List ℝ))) :
    List (List (List ℝ)) :=
  (List.range x.length).map fun b =>
    levelForwardOne p (x.getD b []) (latentGrowth.getD b []) (latentSeasonal.getD b [])

/-- Greatest-amplitude index among the candidates, scanning left to right
and keeping the earlier index on ties (a deterministic tie-breaking of the
top-k selection, as the source's selection is deterministic for a fixed
input). -/
noncomputable def argmaxIdx (amp : List ℝ) (cand : List ℕ) : ℕ :=
  cand.foldl (fun best i => if amp.getD best 0 < amp.getD i 0 then i else best)
    (cand.headD 0)

/-- Repeated selection of the remaining greatest-amplitude index. -/
noncomputable def topKAux (amp : List ℝ) : ℕ → List ℕ → List ℕ
  | 0, _ => []
  | K + 1, cand =>
    if cand.isEmpty then []
    else argmaxIdx amp cand :: topKAux amp K (cand.erase (argmaxIdx amp cand))

/-- Model of `torch.topk(amp, K, dim = 1).indices` along one slot: the `K`
largest-amplitude indices, greatest first, earlier index first on ties. -/
noncomputable def topKIndices (K : ℕ) (amp : List ℝ) : List ℕ :=
  topKAux amp K (List.range amp.length)

/-- Model of `torch.zeros_like(freqs).scatter(1, topk_amp_indices, freqs)`
along one slot.  Torch `scatter(dim, index, src)` writes `src[j]` at
position `index[j]` of the destination: position `sel[j]` receives
`freqs[j]` (the `j`-th entry of the source tensor, not the entry at the
selected position), and every other position stays zero. -/
noncomputable def scatterByIndex (sel : List ℕ) (freqs : List ℂ) (F : ℕ) : List ℂ :=
  (List.range F).map fun pos =>
    if pos ∈ sel then freqs.getD (sel.indexOf pos) 0 else 0

/-- `FrequencyAttention.forward` (source, lines 174-192) along one
time-series slot: real transform along time, amplitudes, top-K selection,
scatter back, inverse transform at the default length `2 * (bins - 1)`.
Dropout on the amplitudes is modelled in evaluation mode (identity). -/
noncomputable def freqAttnSeries (K : ℕ) (x : List ℝ) : List ℝ :=
  let freqs := rfft x x.length
  let amp := freqs.map fun z => Complex.abs z
  let sel := topKIndices K amp
  let topkFreqs := scatterByIndex sel freqs freqs.length
  irfft topkFreqs (2 * (freqs.length - 1))

/-- `FrequencyAttention.forward` on a `time × channel` matrix: the
transform, top-K selection and scatter all act along `dim = 1` (time), so
each channel slot is processed independently. -/
noncomputable def freqAttnMat (K : ℕ) (z : List (List ℝ)) : List (List ℝ) :=
  (List.range (2 * (z.length / 2 + 1 - 1))).map fun t =>
    (List.range (rowWidth z)).map fun e =>
      (freqAttnSeries K (colSeries z e)).getD t 0

/-- `FrequencyAttention.forward` on a batched input. -/
noncomputable def freqAttn (K : ℕ) (x : List (List (List ℝ))) :
    List (List (List ℝ)) :=
  x.map fun mat => freqAttnMat K mat

/-- Parameters of the `InputEmbedding` convolution (source, lines 16-22):
an `nn.Conv1d(time_features, model_dim, kernel_size, padding = kernel_size
// 2)` applied along time after transposing channels and time.  `W` has one
row per output channel, each holding one kernel of length `k` per input
channel; `b` is the bias.  Dropout is modelled in evaluation mode. -/
structure EmbedParams where
  k : ℕ
  W : List (List (List ℝ))
  b : List ℝ

/-- Zero-padded input column read: channel `c` of the input at padded time
position `q`, with `pad` zeros on each side. -/
def paddedAt (mat : List (List ℝ)) (c pad q : ℕ) : ℝ :=
  if q < pad then 0 else (mat.getD (q - pad) []).getD c 0

/-- `InputEmbedding` (source, lines 16-22) on one batch element: the `b n d
-> b d n` transpose, `nn.Conv1d` with padding `k / 2`, and the transpose
back are together a per-output-channel, per-time cross-correlation of the
zero-padded input channels with the kernels.  Output time length is
`n + 2 * (k / 2) + 1 - k`. -/
noncomputable def embedForwardOne (p : EmbedParams) (mat : List (List ℝ)) :
    List (List ℝ) :=
  (List.range (mat.length + 2 * (p.k / 2) + 1 - p.k)).map fun t =>
    (List.range p.W.length).map fun o =>
      (∑ c ∈ Finset.range (p.W.getD o []).length,
        ∑ j ∈ Finset.range p.k,
          ((p.W.getD o []).getD c []).getD j 0 * paddedAt mat c (p.k / 2) (t + j)) +
        p.b.getD o 0

/-- Parameters of a `nn.LayerNorm(dim)` with learned affine transform and
stabilising epsilon (torch default `1e-5`). -/
structure LNParams where
  gamma : List ℝ
  beta : List ℝ
  eps : ℝ

/-- `nn.LayerNorm` on one feature row: normalise by mean and biased
variance over the row, then apply the learned affine transform. -/
noncomputable def layerNormRow (p : LNParams) (r : List ℝ) : List ℝ :=
  let n := r.length
  let mean := (∑ c ∈ Finset.range n, r.getD c 0) / n
  let variance := (∑ c ∈ Finset.range n, (r.getD c 0 - mean) ^ 2) / n
  (List.range n).map fun c =>
    (r.getD c 0 - mean) / Real.sqrt (variance + p.eps) * p.gamma.getD c 0 +
      p.beta.getD c 0

/-- `nn.LayerNorm` applied to every time row of one batch element. -/
noncomputable def layerNormMat (p : LNParams) (mat : List (List ℝ)) :
    List (List ℝ) :=
  mat.map (layerNormRow p)

/-- Parameters of `FeedForward` (source, lines 24-31): two linear layers
with a sigmoid between them (dropout in evaluation mode). -/
structure FFParams where
  W1 : List (List ℝ)
  b1 : List ℝ
  W2 : List (List ℝ)
  b2 : List ℝ

/-- `FeedForward` (source, lines 24-31) on one feature row. -/
noncomputable def feedForwardRow (p : FFParams) (r : List ℝ) : List ℝ :=
  linearForward p.W2 p.b2 ((linearForward p.W1 p.b1 r).map sigmoid)

/-- Parameters of a `FeedForwardBlock` (source, lines 33-45): the layer
norm and the feed-forward net of the residual block. -/
structure FFBlockParams where
  ln : LNParams
  ff : FFParams

/-- `FeedForwardBlock.forward` (source, lines 44-45) on one batch element:
`norm(x + ff(x))` per time row. -/
noncomputable def ffBlockMat (p : FFBlockParams) (mat : List (List ℝ)) :
    List (List ℝ) :=
  (matAdd mat (mat.map (feedForwardRow p.ff))).map (layerNormRow p.ln)

/-- One encoder layer of `ETSFormer` (source, lines 256-262): frequency
attention, multi-head exponential smoothing attention, the post-attention
layer norm, the optional feed-forward block (`None` for a "last layer"
according to the source's `is_last_layer` test), and the level module. -/
structure EncoderLayerParams where
  K : ℕ
  mhesa : MHESAParams
  postLN : LNParams
  ffBlock : Option FFBlockParams
  level : LevelParams

/-- The `is_last_layer` test of `ETSFormer.__init__` (source, line 254):
the Python expression `(ind - 1) == layers` on (possibly negative)
integers. -/
def isLastLayer (ind layers : ℤ) : Prop := ind - 1 = layers

instance (ind layers : ℤ) : Decidable (isLastLayer ind layers) := by
  unfold isLastLayer
  infer_instance

/-- The feed-forward slot built by `ETSFormer.__init__` (source, line 260)
for layer `ind` of `layers`: `FeedForwardBlock(...) if not is_last_layer
else None`. -/
def ffBlockSlot (layers ind : ℕ) (p : FFBlockParams) : Option FFBlockParams :=
  if ¬ isLastLayer (ind : ℤ) (layers : ℤ) then some p else none

/-- `ETSFormer.__init__` (source, lines 248-264): one encoder layer per
`ind in range(layers)`, with the feed-forward slot decided by
`is_last_layer`.  The numeric parameters of each layer are supplied by the
functions `mk` and `mkFF`, standing for the random initialisation of the
source's submodules. -/
def mkEncoderLayers (layers : ℕ) (mk : ℕ → EncoderLayerParams)
    (mkFF : ℕ → FFBlockParams) : List EncoderLayerParams :=
  (List.range layers).map fun ind =>
    { mk ind with ffBlock := ffBlockSlot layers ind (mkFF ind) }

/-- One pass of the encoder-layer loop body of `ETSFormer.forward` (source,
lines 269-281), acting on the pair `(z, x)`.  Note the source calls
`level(x, latent_seasonal, latent_growth)` positionally while
`Level.forward` declares `(x, latent_growth, latent_seasonal)`, so the
seasonal latent arrives in the `latent_growth` slot and vice versa; the
call below reproduces that argument order faithfully. -/
noncomputable def zSubBatch (a b : List (List (List ℝ))) : List (List (List ℝ)) :=
  (List.range a.length).map fun i => matSub (a.getD i []) (b.getD i [])

noncomputable def encoderLayerStep (lp : EncoderLayerParams)
    (zx : List (List (List ℝ)) × List (List (List ℝ))) :
    List (List (List ℝ)) × List (List (List ℝ)) :=
  let z := zx.1
  let x := zx.2
  let latentSeasonal := freqAttn lp.K z
  let z1 := zSubBatch z latentSeasonal
  let latentGrowth := mhesaForward lp.mhesa z1 false
  let z2 := zSubBatch z1 latentGrowth
  let z3 := z2.map (layerNormMat lp.postLN)
  let z4 := match lp.ffBlock with
    | some fb => z3.map (ffBlockMat fb)
    | none => z3
  let xNew := levelForward lp.level x latentSeasonal latentGrowth
  (z4, xNew)

/-- `LevelStack.forward` (source, lines 229-231): the last time row of the
level signal is repeated across the forecast horizon. -/
def levelStackForward (x : List (List (List ℝ))) (numStepsForecast : ℕ) :
    List (List (List ℝ)) :=
  x.map fun mat => List.replicate numStepsForecast (mat.getD (mat.length - 1) [])

/-- All parameters of an `ETSFormer` model. -/
structure ETSFormerParams where
  embed : EmbedParams
  encoderLayers : List EncoderLayerParams

/-- `ETSFormer.forward` (source, lines 266-284): embed, fold the encoder
layers over `(z, x)`, and broadcast the final level with `LevelStack`. -/
noncomputable def etsFormerForward (p : ETSFormerParams)
    (x : List (List (List ℝ))) (numStepsForecast : ℕ) :
    List (List (List ℝ)) :=
  let z := x.map (embedForwardOne p.embed)
  let zx := p.encoderLayers.foldl (fun acc lp => encoderLayerStep lp acc) (z, x)
  levelStackForward zx.2 numStepsForecast

/-- A `time × channel` matrix with `n` rows, each of width `c`. -/
def RectMat (mat : List (List ℝ)) (n c : ℕ) : Prop :=
  mat.length = n ∧ ∀ r ∈ mat, r.length = c

/-- A batch of `bsz` rectangular `n × c` matrices. -/
def BatchRect (x : List (List (List ℝ))) (bsz n c : ℕ) : Prop :=
  x.length = bsz ∧ ∀ mat ∈ x, RectMat mat n c

/-- A batch of `bsz` latent matrices with `n` time rows each (row widths
unconstrained). -/
def ZShape (z : List (List (List ℝ))) (bsz n : ℕ) : Prop :=
  z.length = bsz ∧ ∀ mat ∈ z, mat.length = n

/-- A throwaway encoder-layer parameter pack used to instantiate
constructor-level statements at a concrete input. -/
def trivialEncoderLayer : EncoderLayerParams :=
  ⟨0, ⟨0, 0, [], [], [], [], [], []⟩, ⟨[], [], 0⟩, none, ⟨0, [], [], [], []⟩⟩

/-- A throwaway feed-forward block parameter pack. -/
def trivialFFBlock : FFBlockParams := ⟨⟨[], [], 0⟩, ⟨[], [], [], []⟩⟩

/-- Modelled from the spec: the direct `O(N*M)` causal reference convolution
that the spec's contract for `conv1d_fft` describes ("for each time step t,
the causal weighted sum of past entries with W reversed appropriately"):
output `t` sums `W[M - 1 - k] * X[t - k]` over lags `k ≤ min t (M - 1)`.
The repository has no such direct implementation (its quadratic reference,
`naive_Aes`, is the gather-based square-kernel path), so this definition
follows the spec's words. -/
noncomputable def causalRef (x w : List ℝ) : List ℝ :=
  (List.range x.length).map fun t =>
    ∑ k ∈ Finset.range (min t (w.length - 1) + 1),
      w.getD (w.length - 1 - k) 0 * x.getD (t - k) 0

/-- A tiny concrete `Level` parameter pack with a 1-channel seasonal
projection. -/
def tinyLevelParams : LevelParams := ⟨0, [[1]], [0], [[1]], [0]⟩

/-- A tiny concrete encoder layer (1 head, 1-channel projections). -/
def tinyEncoderLayer : EncoderLayerParams :=
  ⟨1, ⟨1, 1, [[0]], [0], [[1]], [0], [[1]], [0]⟩, ⟨[1], [0], 1⟩, none,
    tinyLevelParams⟩

/-- A tiny concrete one-layer `ETSFormer` with kernel size 1. -/
def tinyETSFormer : ETSFormerParams := ⟨⟨1, [[[1]]], [0]⟩, [tinyEncoderLayer]⟩

lemma nextFastLenAux_ge (fuel : ℕ) : ∀ k, k ≤ nextFastLenAux fuel k := by
  induction fuel with
  | zero => intro k; simp [nextFastLenAux]
  | succ fuel ih =>
    intro k
    rw [nextFastLenAux]
    by_cases hk : isFiveSmooth k = true
    · simp [hk]
    · simp only [hk, Bool.false_eq_true, if_false]
      have := ih (k + 1)
      omega

lemma nextFastLen_ge (n : ℕ) : n ≤ nextFastLen n := by
  unfold nextFastLen
  by_cases h : n ≤ 6
  · simp [h]
  · simpa [h] using nextFastLenAux_ge n n

lemma gatherIndex_eq_of_le {n t s : ℕ} (ht : t < n) (hs : s ≤ t) :
    gatherIndex n t s = n + s - (t + 1) := by
  unfold gatherIndex
  have hn : (0 : ℤ) < (n : ℤ) := by exact_mod_cast Nat.pos_of_ne_zero (by omega)
  have key : ((s : ℤ) - (t + 1)) % (n : ℤ) = ((n : ℤ) + s - (t + 1)) := by
    have h1 : (s : ℤ) - (t + 1) = ((n : ℤ) + s - (t + 1)) + n * (-1) := by ring
    rw [h1, Int.add_mul_emod_self_left]
    exact Int.emod_eq_of_lt (by omega) (by omega)
  rw [key]
  omega

/-- Bucket membership for the circular correlation, resolved to a linear
condition: with `L ≥ 2N - 1` and all of `t, j, i < N`, the pair `(j, i)`
lands in the bucket read by output index `t` exactly when `j ≤ t` and
`i = j + (N - 1 - t)`. -/
lemma corrBucket_iff {N L t j i : ℕ} (hL : 2 * N ≤ L + 1) (ht : t < N)
    (hj : j < N) (hi : i < N) :
    (L + j - i) % L = (L - N + t + 1) % L ↔ (j ≤ t ∧ i = j + (N - 1 - t)) := by
  have hL0 : 0 < L := by omega
  have hrhs : (L - N + t + 1) % L = if t + 1 = N then 0 else L - N + t + 1 := by
    by_cases hN : t + 1 = N
    · have h1 : L - N + t + 1 = L := by omega
      simp [hN, h1]
    · have h2 : L - N + t + 1 < L := by omega
      simp [hN, Nat.mod_eq_of_lt h2]
  rcases le_or_lt i j with hij | hij
  · have h1 : L + j - i = L + (j - i) := by omega
    rw [h1, Nat.add_mod_left, Nat.mod_eq_of_lt (by omega), hrhs]
    by_cases hN : t + 1 = N
    · simp only [hN, if_true]
      omega
    · simp only [hN, if_false]
      omega
  · rw [Nat.mod_eq_of_lt (by omega : L + j - i < L), hrhs]
    by_cases hN : t + 1 = N
    · simp only [hN, if_true]
      omega
    · simp only [hN, if_false]
      omega

/-- Core equivalence on a scalar series: for a kernel of the same length as
the signal (how `MHESA` and `Level` always call it), the circular
correlation computed by the FFT path agrees pointwise with the
gather-and-mask quadratic path. -/
theorem corr_eq_naiveSeries (x w : List ℝ) (h : w.length = x.length) :
    conv1d_fftCorr x w = naiveAesSeries x w := by
  unfold conv1d_fftCorr naiveAesSeries
  rw [h]
  set N := x.length with hN
  set L := nextFastLen (N + N - 1) with hLdef
  have hL : 2 * N ≤ L + 1 := by
    have := nextFastLen_ge (N + N - 1)
    omega
  apply List.map_congr_left
  intro t htmem
  have ht : t < N := List.mem_range.mp htmem
  refine Finset.sum_congr rfl fun j hjmem => ?_
  have hj : j < N := Finset.mem_range.mp hjmem
  have hcong : ∀ i ∈ Finset.range N,
      (if (L + j - i) % L = (L - N + t + 1) % L then x.getD j 0 * w.getD i 0 else 0) =
        if j ≤ t ∧ i = j + (N - 1 - t) then x.getD j 0 * w.getD i 0 else 0 := by
    intro i himem
    exact if_congr (corrBucket_iff hL ht hj (Finset.mem_range.mp himem)) rfl rfl
  rw [Finset.sum_congr rfl hcong]
  unfold naiveWeightsMatrix
  by_cases hjt : j ≤ t
  · simp only [hjt, true_and, if_true]
    rw [Finset.sum_ite_eq' (Finset.range N) (j + (N - 1 - t))
      (fun i => x.getD j 0 * w.getD i 0)]
    rw [if_pos (Finset.mem_range.mpr (by omega))]
    rw [gatherIndex_eq_of_le ht hjt]
    have hidx : N + j - (t + 1) = j + (N - 1 - t) := by omega
    rw [hidx, mul_comm]
  · simp [hjt]

lemma expUnit_congr (L : ℕ) {a b : ℤ} (h : a = b) : expUnit L a = expUnit L b := by
  rw [h]

lemma expUnit_mul_expUnit (L : ℕ) (a b : ℤ) :
    expUnit L a * expUnit L b = expUnit L (a + b) := by
  unfold expUnit
  rw [← Complex.exp_add]
  congr 1
  push_cast
  ring

lemma expUnit_eq_zpow (L : ℕ) (m : ℤ) : expUnit L m = expUnit L 1 ^ m := by
  unfold expUnit
  rw [← Complex.exp_int_mul]
  congr 1
  push_cast
  ring

lemma expUnit_eq_one_iff {L : ℕ} (hL : 0 < L) (m : ℤ) :
    expUnit L m = 1 ↔ (L : ℤ) ∣ m := by
  have hprim : IsPrimitiveRoot (Complex.exp (2 * Real.pi * Complex.I / L)) L :=
    Complex.isPrimitiveRoot_exp L (by omega)
  have h1 : expUnit L 1 = Complex.exp (2 * Real.pi * Complex.I / L) := by
    unfold expUnit
    congr 1
    push_cast
    ring
  rw [expUnit_eq_zpow, h1]
  exact hprim.zpow_eq_one_iff_dvd m

lemma expUnit_dvd_eq_one {L : ℕ} (hL : 0 < L) {m : ℤ} (h : (L : ℤ) ∣ m) :
    expUnit L m = 1 := (expUnit_eq_one_iff hL m).mpr h

lemma expUnit_int_mul_natPow (L : ℕ) (m : ℤ) (k : ℕ) :
    expUnit L (m * k) = expUnit L m ^ k := by
  rw [expUnit_eq_zpow L (m * (k : ℤ)), expUnit_eq_zpow L m,
    ← zpow_natCast (expUnit L 1 ^ m) k, ← zpow_mul]

/-- Orthogonality of the discrete characters: summing `exp (2 pi i m k / L)`
over one period vanishes unless `L` divides `m`. -/
lemma expUnit_orthogonality {L : ℕ} (hL : 0 < L) (m : ℤ) :
    ∑ k ∈ Finset.range L, expUnit L (m * k) = if (L : ℤ) ∣ m then (L : ℂ) else 0 := by
  by_cases hdvd : (L : ℤ) ∣ m
  · rw [if_pos hdvd]
    have hone : ∀ k ∈ Finset.range L, expUnit L (m * k) = 1 := by
      intro k _
      exact expUnit_dvd_eq_one hL (Dvd.dvd.mul_right hdvd (k : ℤ))
    rw [Finset.sum_congr rfl hone]
    simp
  · rw [if_neg hdvd]
    have hpow : ∀ k ∈ Finset.range L, expUnit L (m * k) = expUnit L m ^ k := by
      intro k _
      exact expUnit_int_mul_natPow L m k
    rw [Finset.sum_congr rfl hpow]
    have hne : expUnit L m ≠ 1 := fun hone => hdvd ((expUnit_eq_one_iff hL m).mp hone)
    rw [geom_sum_eq hne]
    have hLpow : expUnit L m ^ L = 1 := by
      rw [← expUnit_int_mul_natPow L m L]
      exact expUnit_dvd_eq_one hL ⟨m, mul_comm m L⟩
    rw [hLpow]
    simp

lemma getD_map_range {α : Type} {f : ℕ → α} {n k : ℕ} (hk : k < n) (d : α) :
    ((List.range n).map f).getD k d = f k := by
  rw [List.getD_eq_getElem _ d (by simpa using hk)]
  simp

lemma dftPoint_conj (x : List ℝ) (L : ℕ) (k : ℤ) :
    (starRingEnd ℂ) (dftPoint x L k) = dftPoint x L (-k) := by
  unfold dftPoint
  rw [map_sum]
  refine Finset.sum_congr rfl fun t _ => ?_
  rw [map_mul, Complex.conj_ofReal]
  congr 1
  unfold expUnit
  rw [← Complex.exp_conj]
  congr 1
  rw [map_div₀]
  simp only [map_mul, map_ofNat, Complex.conj_I, Complex.conj_ofReal, map_intCast,
    map_natCast, map_neg]
  push_cast
  ring

lemma dftPoint_period (x : List ℝ) (L : ℕ) (k : ℤ) :
    dftPoint x L (k + L) = dftPoint x L k := by
  unfold dftPoint
  refine Finset.sum_congr rfl fun t _ => ?_
  congr 1
  have hsplit : -((t : ℤ) * (k + L)) = -((t : ℤ) * k) + (L : ℤ) * (-(t : ℤ)) := by ring
  rw [hsplit, ← expUnit_mul_expUnit]
  by_cases hL : 0 < L
  · rw [expUnit_dvd_eq_one hL ⟨-(t : ℤ), rfl⟩, mul_one]
  · have : L = 0 := by omega
    subst this
    simp [expUnit]

lemma intDvd_char {L : ℕ} (hL : 0 < L) {m : ℤ} (h1 : -(L : ℤ) < m) (h2 : m < 2 * L) :
    ((L : ℤ) ∣ m) ↔ (m = 0 ∨ m = L) := by
  constructor
  · rintro ⟨c, hc⟩
    have hc1 : c < 2 := by
      by_contra hge
      push_neg at hge
      have hmul : (L : ℤ) * 2 ≤ L * c :=
        mul_le_mul_of_nonneg_left hge (by positivity)
      rw [← hc] at hmul
      omega
    have hc2 : -1 < c := by
      by_contra hle
      push_neg at hle
      have hmul : (L : ℤ) * c ≤ L * (-1) :=
        mul_le_mul_of_nonneg_left hle (by positivity)
      rw [← hc] at hmul
      omega
    have hc01 : c = 0 ∨ c = 1 := by omega
    rcases hc01 with rfl | rfl
    · left
      omega
    · right
      omega
  · rintro (rfl | rfl)
    · exact dvd_zero _
    · exact dvd_refl _

lemma natMod_eq_iff_intDvd {L j i a : ℕ} (hL : 0 < L) (hj : j < L) (hi : i < L)
    (ha : a < L) :
    (L + j - i) % L = a ↔ (L : ℤ) ∣ ((a : ℤ) + i - j) := by
  have hbound1 : -(L : ℤ) < (a : ℤ) + i - j := by omega
  have hbound2 : (a : ℤ) + i - j < 2 * L := by omega
  rw [intDvd_char hL hbound1 hbound2]
  rcases lt_or_le (L + j - i) L with hv | hv
  · rw [Nat.mod_eq_of_lt hv]
    omega
  · have hsub : (L + j - i) % L = L + j - i - L := by
      rw [Nat.mod_eq_sub_mod (by omega), Nat.mod_eq_of_lt (by omega)]
    rw [hsub]
    omega

/-- Inverse transform of the conjugate-multiplied full spectra: the value at
output index `a` is the circular cross-correlation bucket `a`, expressed by
the divisibility condition `L ∣ a + i - j`. -/
lemma corrValue (x w : List ℝ) {L : ℕ} (hL : 0 < L) (a : ℕ) :
    (((L : ℂ))⁻¹ * ∑ k ∈ Finset.range L,
        dftPoint x L k * (starRingEnd ℂ) (dftPoint w L k) * expUnit L ((a : ℤ) * k)).re =
      ∑ j ∈ Finset.range L, ∑ i ∈ Finset.range L,
        if (L : ℤ) ∣ ((a : ℤ) + i - j) then x.getD j 0 * w.getD i 0 else 0 := by
  have hterm : ∀ k ∈ Finset.range L,
      dftPoint x L k * (starRingEnd ℂ) (dftPoint w L k) * expUnit L ((a : ℤ) * k)
        = ∑ j ∈ Finset.range L, ∑ i ∈ Finset.range L,
            (x.getD j 0 : ℂ) * (w.getD i 0 : ℂ) * expUnit L (((a : ℤ) + i - j) * k) := by
    intro k _
    rw [dftPoint_conj]
    unfold dftPoint
    rw [Finset.sum_mul_sum]
    rw [Finset.sum_mul]
    refine Finset.sum_congr rfl fun j _ => ?_
    rw [Finset.sum_mul]
    refine Finset.sum_congr rfl fun i _ => ?_
    have hE : expUnit L (-((j : ℤ) * k)) * expUnit L (-((i : ℤ) * -k)) *
        expUnit L ((a : ℤ) * k) = expUnit L (((a : ℤ) + i - j) * k) := by
      rw [expUnit_mul_expUnit, expUnit_mul_expUnit]
      exact expUnit_congr L (by ring)
    rw [← hE]
    ring
  rw [Finset.sum_congr rfl hterm]
  rw [Finset.sum_comm]
  have hswap : ∀ j ∈ Finset.range L,
      ∑ k ∈ Finset.range L, ∑ i ∈ Finset.range L,
          (x.getD j 0 : ℂ) * (w.getD i 0 : ℂ) * expUnit L (((a : ℤ) + i - j) * k)
        = ∑ i ∈ Finset.range L, (x.getD j 0 : ℂ) * (w.getD i 0 : ℂ) *
            (if (L : ℤ) ∣ ((a : ℤ) + i - j) then (L : ℂ) else 0) := by
    intro j _
    rw [Finset.sum_comm]
    refine Finset.sum_congr rfl fun i _ => ?_
    rw [← Finset.mul_sum, expUnit_orthogonality hL]
  rw [Finset.sum_congr rfl hswap]
  rw [Finset.mul_sum]
  have hfin : ∀ j ∈ Finset.range L,
      (L : ℂ)⁻¹ * ∑ i ∈ Finset.range L, (x.getD j 0 : ℂ) * (w.getD i 0 : ℂ) *
          (if (L : ℤ) ∣ ((a : ℤ) + i - j) then (L : ℂ) else 0)
        = ∑ i ∈ Finset.range L,
            if (L : ℤ) ∣ ((a : ℤ) + i - j) then ((x.getD j 0 * w.getD i 0 : ℝ) : ℂ)
            else 0 := by
    intro j _
    rw [Finset.mul_sum]
    refine Finset.sum_congr rfl fun i _ => ?_
    by_cases hdvd : (L : ℤ) ∣ ((a : ℤ) + i - j)
    · rw [if_pos hdvd, if_pos hdvd]
      have hLne : (L : ℂ) ≠ 0 := by
        simp only [ne_eq, Nat.cast_eq_zero]
        omega
      push_cast
      field_simp
    · simp [hdvd]
  rw [Finset.sum_congr rfl hfin]
  have hcast : (((∑ j ∈ Finset.range L, ∑ i ∈ Finset.range L,
      if (L : ℤ) ∣ ((a : ℤ) + i - j) then x.getD j 0 * w.getD i 0 else 0 : ℝ)) : ℂ)
      = ∑ j ∈ Finset.range L, ∑ i ∈ Finset.range L,
          if (L : ℤ) ∣ ((a : ℤ) + i - j) then ((x.getD j 0 * w.getD i 0 : ℝ) : ℂ)
          else 0 := by
    rw [Complex.ofReal_sum]
    refine Finset.sum_congr rfl fun j _ => ?_
    rw [Complex.ofReal_sum]
    refine Finset.sum_congr rfl fun i _ => ?_
    rw [apply_ite (fun r : ℝ => (r : ℂ)), Complex.ofReal_zero]
  rw [← hcast, Complex.ofReal_re]

lemma prod_spectrum_getD (x w : List ℝ) (L : ℕ) {k : ℕ} (hk : k < L / 2 + 1) :
    (List.zipWith (fun a b => a * (starRingEnd ℂ) b) (rfft x L) (rfft w L)).getD k 0
      = dftPoint x L k * (starRingEnd ℂ) (dftPoint w L k) := by
  have hlen : (List.zipWith (fun a b => a * (starRingEnd ℂ) b)
      (rfft x L) (rfft w L)).length = L / 2 + 1 := by
    simp only [List.length_zipWith, rfft, List.length_map, List.length_range, Nat.min_self]
  rw [List.getD_eq_getElem _ 0 (by rw [hlen]; exact hk)]
  rw [List.getElem_zipWith]
  simp only [rfft, List.getElem_map, List.getElem_range]

/-- The conjugate-symmetric extension of the product half-spectrum, as read
by `irfft`, equals the full-period product spectrum at every index. -/
lemma extProd_eq (x w : List ℝ) {L : ℕ} {k : ℕ} (hk : k < L) :
    (if k < (List.zipWith (fun a b => a * (starRingEnd ℂ) b) (rfft x L) (rfft w L)).length
      then (List.zipWith (fun a b => a * (starRingEnd ℂ) b) (rfft x L) (rfft w L)).getD k 0
      else (starRingEnd ℂ)
        ((List.zipWith (fun a b => a * (starRingEnd ℂ) b) (rfft x L)
          (rfft w L)).getD (L - k) 0))
      = dftPoint x L k * (starRingEnd ℂ) (dftPoint w L k) := by
  have hlen : (List.zipWith (fun a b => a * (starRingEnd ℂ) b)
      (rfft x L) (rfft w L)).length = L / 2 + 1 := by
    simp only [List.length_zipWith, rfft, List.length_map, List.length_range, Nat.min_self]
  rw [hlen]
  by_cases hkF : k < L / 2 + 1
  · rw [if_pos hkF, prod_spectrum_getD x w L hkF]
  · rw [if_neg hkF]
    have hk1 : L - k < L / 2 + 1 := by omega
    rw [prod_spectrum_getD x w L hk1]
    rw [map_mul, Complex.conj_conj]
    have hcast : ((L - k : ℕ) : ℤ) = (L : ℤ) - k := by omega
    have hx : dftPoint x L (-((L - k : ℕ) : ℤ)) = dftPoint x L (k : ℤ) := by
      rw [hcast, show -((L : ℤ) - k) = (k : ℤ) - L by ring]
      have hper := dftPoint_period x L ((k : ℤ) - L)
      rw [show (k : ℤ) - L + L = (k : ℤ) by ring] at hper
      exact hper.symm
    have hw : dftPoint w L ((L - k : ℕ) : ℤ) = dftPoint w L (-(k : ℤ)) := by
      rw [hcast]
      have hper := dftPoint_period w L (-(k : ℤ))
      rw [show -(k : ℤ) + L = (L : ℤ) - k by ring] at hper
      exact hper
    rw [dftPoint_conj, hx, hw, ← dftPoint_conj]

/-- The literal FFT pipeline of `conv1d_fft` (transform at the fast length,
conjugate multiply, inverse transform, roll by one, keep the last `N`
indices) computes exactly the circular cross-correlation `conv1d_fftCorr`. -/
theorem conv1d_fft_eq_corr (x w : List ℝ) (hM : 0 < w.length) :
    conv1d_fft x w = conv1d_fftCorr x w := by
  rcases Nat.eq_zero_or_pos x.length with hN0 | hN
  · simp only [conv1d_fft, conv1d_fftCorr, hN0, List.range_zero, List.map_nil]
  · simp only [conv1d_fft, conv1d_fftCorr]
    have hNM : x.length + w.length - 1 ≤ nextFastLen (x.length + w.length - 1) :=
      nextFastLen_ge _
    set N := x.length with hNdef
    set M := w.length with hMdef
    set L := nextFastLen (N + M - 1) with hLdef
    have hNL : N ≤ L := by omega
    have hML : M ≤ L := by omega
    have hL0 : 0 < L := by omega
    apply List.map_congr_left
    intro t htmem
    have ht : t < N := List.mem_range.mp htmem
    have hidx : L - N + t < L := by omega
    rw [getD_map_range hidx]
    simp only [irfft]
    have ha : (L - N + t + 1) % L < L := Nat.mod_lt _ hL0
    rw [getD_map_range ha]
    have hcoeff : ∀ k ∈ Finset.range L,
        (if k < (List.zipWith (fun a b => a * (starRingEnd ℂ) b)
            (rfft x L) (rfft w L)).length
          then (List.zipWith (fun a b => a * (starRingEnd ℂ) b)
            (rfft x L) (rfft w L)).getD k 0
          else (starRingEnd ℂ) ((List.zipWith (fun a b => a * (starRingEnd ℂ) b)
            (rfft x L) (rfft w L)).getD (L - k) 0)) *
            expUnit L (((L - N + t + 1) % L : ℕ) * k)
          = dftPoint x L k * (starRingEnd ℂ) (dftPoint w L k) *
              expUnit L (((L - N + t + 1) % L : ℕ) * k) := by
      intro k hk
      rw [extProd_eq x w (Finset.mem_range.mp hk)]
    rw [Finset.sum_congr rfl hcoeff]
    rw [corrValue x w hL0 ((L - N + t + 1) % L)]
    have houter : ∑ j ∈ Finset.range L, ∑ i ∈ Finset.range L,
        (if (L : ℤ) ∣ ((((L - N + t + 1) % L : ℕ) : ℤ) + i - j)
          then x.getD j 0 * w.getD i 0 else 0)
        = ∑ j ∈ Finset.range N, ∑ i ∈ Finset.range L,
            (if (L : ℤ) ∣ ((((L - N + t + 1) % L : ℕ) : ℤ) + i - j)
              then x.getD j 0 * w.getD i 0 else 0) := by
      symm
      apply Finset.sum_subset (Finset.range_subset.mpr hNL)
      intro j hjL hjN
      have hxj : x.getD j 0 = 0 := by
        apply List.getD_eq_default
        simp only [Finset.mem_range] at hjN
        omega
      simp only [hxj, zero_mul, ite_self, Finset.sum_const_zero]
    rw [houter]
    refine Finset.sum_congr rfl fun j hj => ?_
    have hjN : j < N := Finset.mem_range.mp hj
    have hinner : ∑ i ∈ Finset.range L,
        (if (L : ℤ) ∣ ((((L - N + t + 1) % L : ℕ) : ℤ) + i - j)
          then x.getD j 0 * w.getD i 0 else 0)
        = ∑ i ∈ Finset.range M,
            (if (L : ℤ) ∣ ((((L - N + t + 1) % L : ℕ) : ℤ) + i - j)
              then x.getD j 0 * w.getD i 0 else 0) := by
      symm
      apply Finset.sum_subset (Finset.range_subset.mpr hML)
      intro i hiL hiM
      have hwi : w.getD i 0 = 0 := by
        apply List.getD_eq_default
        simp only [Finset.mem_range] at hiM
        omega
      simp only [hwi, mul_zero, ite_self]
    rw [hinner]
    refine Finset.sum_congr rfl fun i hi => ?_
    have hiM : i < M := Finset.mem_range.mp hi
    exact if_congr
      ((natMod_eq_iff_intDvd hL0 (by omega) (by omega) ha).symm) rfl rfl

/-- On a scalar series with kernel length equal to signal length (the only
way this repository calls it), the FFT pipeline equals the quadratic
gather-and-mask pipeline exactly. -/
theorem conv1d_fft_eq_naiveSeries (x w : List ℝ) (h : w.length = x.length) :
    conv1d_fft x w = naiveAesSeries x w := by
  rcases Nat.eq_zero_or_pos x.length with hN0 | hN
  · simp only [conv1d_fft, naiveAesSeries, hN0, List.range_zero, List.map_nil]
  · rw [conv1d_fft_eq_corr x w (by omega), corr_eq_naiveSeries x w h]

lemma colSeries_length (rows : List (List ℝ)) (e : ℕ) :
    (colSeries rows e).length = rows.length := by
  simp [colSeries]

lemma colSeries_getD {rows : List (List ℝ)} {s : ℕ} (e : ℕ) (hs : s < rows.length) :
    (colSeries rows e).getD s 0 = (rows.getD s []).getD e 0 := by
  unfold colSeries
  rw [List.getD_eq_getElem _ 0 (by simpa using hs), List.getElem_map,
    List.getD_eq_getElem _ [] hs]

/-- Matrix-level equivalence of the two smoothing paths for equal-length
kernels. -/
theorem conv1d_fftMat_eq_naiveAesMat (rows : List (List ℝ)) (w : List ℝ)
    (h : w.length = rows.length) :
    conv1d_fftMat rows w = naiveAesMat rows w := by
  unfold conv1d_fftMat naiveAesMat
  apply List.map_congr_left
  intro t htmem
  have ht : t < rows.length := List.mem_range.mp htmem
  apply List.map_congr_left
  intro e _
  have hcol : (colSeries rows e).length = rows.length := colSeries_length rows e
  rw [conv1d_fft_eq_naiveSeries _ w (by rw [hcol, h])]
  unfold naiveAesSeries
  rw [hcol, getD_map_range ht]
  refine Finset.sum_congr rfl fun s hs => ?_
  rw [colSeries_getD e (Finset.mem_range.mp hs)]

lemma smoothingWeights_length (a : ℝ) (n : ℕ) : (smoothingWeights a n).length = n := by
  simp [smoothingWeights]

lemma temporalDiff_length (init : List ℝ) (rows : List (List ℝ)) :
    (temporalDiff init rows).length = rows.length := by
  simp [temporalDiff]

lemma aesPath_true_eq_false (rows : List (List ℝ)) (w : List ℝ)
    (h : w.length = rows.length) : aesPath true rows w = aesPath false rows w := by
  unfold aesPath
  simp only [if_true, if_false]
  exact (conv1d_fftMat_eq_naiveAesMat rows w h).symm

lemma mhesaForwardOne_true_eq_false (p : MHESAParams) (mat : List (List ℝ)) :
    mhesaForwardOne p mat true = mhesaForwardOne p mat false := by
  simp only [mhesaForwardOne]
  refine congrArg (List.map (linearForward p.projOutW p.projOutB)) ?_
  apply List.map_congr_left
  intro t _
  refine congrArg List.flatten ?_
  apply List.map_congr_left
  intro h _
  apply List.map_congr_left
  intro e _
  have hlen : (smoothingWeights (sigmoid (p.alpha.getD h 0)) mat.length).length =
      (temporalDiff (p.initialState.getD h [])
        ((mat.map (linearForward p.projInW p.projInB)).map
          (headSlice p.dimHead h))).length := by
    rw [smoothingWeights_length, temporalDiff_length]
    simp
  rw [aesPath_true_eq_false _ _ hlen]

lemma zipWith_row_mem {α β γ : Type} {f : α → β → γ} {a : List α} {b : List β} {r : γ}
    (hr : r ∈ List.zipWith f a b) :
    ∃ i, ∃ hia : i < a.length, ∃ hib : i < b.length, r = f (a.get ⟨i, hia⟩) (b.get ⟨i, hib⟩) := by
  rw [List.mem_iff_getElem] at hr
  obtain ⟨i, hi, hEq⟩ := hr
  rw [List.length_zipWith] at hi
  refine ⟨i, by omega, by omega, ?_⟩
  rw [← hEq, List.getElem_zipWith]
  simp

lemma linearForward_length (W : List (List ℝ)) (b v : List ℝ) :
    (linearForward W b v).length = W.length := by
  simp [linearForward]

lemma mhesaForwardOne_length (p : MHESAParams) (mat : List (List ℝ)) (naive : Bool) :
    (mhesaForwardOne p mat naive).length = mat.length := by
  simp [mhesaForwardOne]

lemma freqAttnMat_length (K : ℕ) (z : List (List ℝ)) :
    (freqAttnMat K z).length = 2 * (z.length / 2) := by
  simp [freqAttnMat]

lemma matSub_length (a b : List (List ℝ)) :
    (matSub a b).length = min a.length b.length := by
  simp [matSub]

lemma matAdd_length (a b : List (List ℝ)) :
    (matAdd a b).length = min a.length b.length := by
  simp [matAdd]

lemma matSub_rect {a b : List (List ℝ)} {n c : ℕ} (ha : RectMat a n c)
    (hb : RectMat b n c) : RectMat (matSub a b) n c := by
  refine ⟨by rw [matSub_length, ha.1, hb.1, Nat.min_self], ?_⟩
  intro r hr
  obtain ⟨i, hia, hib, rfl⟩ := zipWith_row_mem hr
  rw [List.length_zipWith, ha.2 _ (List.get_mem a _ _), hb.2 _ (List.get_mem b _ _),
    Nat.min_self]

lemma matAdd_rect {a b : List (List ℝ)} {n c : ℕ} (ha : RectMat a n c)
    (hb : RectMat b n c) : RectMat (matAdd a b) n c := by
  refine ⟨by rw [matAdd_length, ha.1, hb.1, Nat.min_self], ?_⟩
  intro r hr
  obtain ⟨i, hia, hib, rfl⟩ := zipWith_row_mem hr
  rw [List.length_zipWith, ha.2 _ (List.get_mem a _ _), hb.2 _ (List.get_mem b _ _),
    Nat.min_self]

lemma rowWidth_of_rect {mat : List (List ℝ)} {n c : ℕ} (h : RectMat mat n c)
    (hn : 0 < n) : rowWidth mat = c := by
  unfold rowWidth
  have hlen : 0 < mat.length := by rw [h.1]; exact hn
  rw [List.getD_eq_getElem _ [] hlen]
  exact h.2 _ (List.getElem_mem hlen)

lemma conv1d_fftMat_rect {rows : List (List ℝ)} {n c : ℕ} (w : List ℝ)
    (h : RectMat rows n c) (hn : 0 < n) : RectMat (conv1d_fftMat rows w) n c := by
  refine ⟨by simp [conv1d_fftMat, h.1], ?_⟩
  intro r hr
  unfold conv1d_fftMat at hr
  obtain ⟨t, _, rfl⟩ := List.mem_map.mp hr
  rw [List.length_map, List.length_range, rowWidth_of_rect h hn]

lemma levelForwardOne_rect (p : LevelParams) {x lg ls : List (List ℝ)} {n c : ℕ}
    (hn : 0 < n) (hx : RectMat x n c) (hls : ls.length = n)
    (hW : p.toSeasonalW.length = c) :
    RectMat (levelForwardOne p x lg ls) n c := by
  simp only [levelForwardOne]
  have hseas : RectMat (ls.map (linearForward p.toSeasonalW p.toSeasonalB)) n c := by
    refine ⟨by rw [List.length_map, hls], ?_⟩
    intro r hr
    obtain ⟨v, _, rfl⟩ := List.mem_map.mp hr
    rw [linearForward_length, hW]
  have hxn : x.length = n := hx.1
  rw [hxn]
  exact matAdd_rect
    (conv1d_fftMat_rect _ (matSub_rect hx hseas) hn)
    (conv1d_fftMat_rect _ hx hn)

lemma layerNormMat_length (p : LNParams) (mat : List (List ℝ)) :
    (layerNormMat p mat).length = mat.length := by
  simp [layerNormMat]

lemma ffBlockMat_length (p : FFBlockParams) (mat : List (List ℝ)) :
    (ffBlockMat p mat).length = mat.length := by
  simp [ffBlockMat, matAdd]

lemma getD_mem_of_lt {α : Type} {l : List α} {i : ℕ} (hi : i < l.length) (d : α) :
    l.getD i d ∈ l := by
  rw [List.getD_eq_getElem _ d hi]
  exact List.getElem_mem hi

lemma mhesaForward_zshape (p : MHESAParams) {z : List (List (List ℝ))} {bsz n : ℕ}
    (hz : ZShape z bsz n) (naive : Bool) : ZShape (mhesaForward p z naive) bsz n := by
  refine ⟨by simp [mhesaForward, hz.1], ?_⟩
  intro mat hmat
  obtain ⟨m0, hm0, rfl⟩ := List.mem_map.mp hmat
  rw [mhesaForwardOne_length]
  exact hz.2 _ hm0

lemma freqAttn_zshape (K : ℕ) {z : List (List (List ℝ))} {bsz n : ℕ} (hn2 : n % 2 = 0)
    (hz : ZShape z bsz n) : ZShape (freqAttn K z) bsz n := by
  refine ⟨by simp [freqAttn, hz.1], ?_⟩
  intro mat hmat
  obtain ⟨m0, hm0, rfl⟩ := List.mem_map.mp hmat
  rw [freqAttnMat_length, hz.2 _ hm0]
  omega

lemma zSubBatch_zshape {a b : List (List (List ℝ))} {bsz n : ℕ}
    (ha : ZShape a bsz n) (hb : ZShape b bsz n) : ZShape (zSubBatch a b) bsz n := by
  refine ⟨by simp [zSubBatch, ha.1], ?_⟩
  intro mat hmat
  obtain ⟨i, hi, rfl⟩ := List.mem_map.mp hmat
  have hi' : i < a.length := List.mem_range.mp hi
  have hib : i < b.length := by rw [hb.1, ← ha.1]; exact hi'
  rw [matSub_length, ha.2 _ (getD_mem_of_lt hi' []), hb.2 _ (getD_mem_of_lt hib []),
    Nat.min_self]

lemma map_length_preserving_zshape {f : List (List ℝ) → List (List ℝ)}
    (hf : ∀ mat, (f mat).length = mat.length) {z : List (List (List ℝ))} {bsz n : ℕ}
    (hz : ZShape z bsz n) : ZShape (z.map f) bsz n := by
  refine ⟨by simp [hz.1], ?_⟩
  intro mat hmat
  obtain ⟨m0, hm0, rfl⟩ := List.mem_map.mp hmat
  rw [hf]
  exact hz.2 _ hm0

lemma levelForward_rect (p : LevelParams) {x lg ls : List (List (List ℝ))}
    {bsz n c : ℕ} (hn : 0 < n) (hx : BatchRect x bsz n c) (hls : ZShape ls bsz n)
    (hW : p.toSeasonalW.length = c) :
    BatchRect (levelForward p x lg ls) bsz n c := by
  refine ⟨by simp [levelForward, hx.1], ?_⟩
  intro mat hmat
  unfold levelForward at hmat
  obtain ⟨b, hb, rfl⟩ := List.mem_map.mp hmat
  have hb' : b < x.length := List.mem_range.mp hb
  have hbls : b < ls.length := by rw [hls.1, ← hx.1]; exact hb'
  exact levelForwardOne_rect p hn (hx.2 _ (getD_mem_of_lt hb' []))
    (hls.2 _ (getD_mem_of_lt hbls [])) hW

lemma encoderLayerStep_shape (lp : EncoderLayerParams) {bsz n c : ℕ}
    (hn : 0 < n) (hn2 : n % 2 = 0) (hW : lp.level.toSeasonalW.length = c)
    {zx : List (List (List ℝ)) × List (List (List ℝ))}
    (hz : ZShape zx.1 bsz n) (hx : BatchRect zx.2 bsz n c) :
    ZShape (encoderLayerStep lp zx).1 bsz n ∧
      BatchRect (encoderLayerStep lp zx).2 bsz n c := by
  have hfa : ZShape (freqAttn lp.K zx.1) bsz n := freqAttn_zshape lp.K hn2 hz
  have hz1 : ZShape (zSubBatch zx.1 (freqAttn lp.K zx.1)) bsz n :=
    zSubBatch_zshape hz hfa
  have hlg : ZShape (mhesaForward lp.mhesa (zSubBatch zx.1 (freqAttn lp.K zx.1)) false)
      bsz n := mhesaForward_zshape lp.mhesa hz1 false
  have hz2 : ZShape (zSubBatch (zSubBatch zx.1 (freqAttn lp.K zx.1))
      (mhesaForward lp.mhesa (zSubBatch zx.1 (freqAttn lp.K zx.1)) false)) bsz n :=
    zSubBatch_zshape hz1 hlg
  have hz3 : ZShape ((zSubBatch (zSubBatch zx.1 (freqAttn lp.K zx.1))
      (mhesaForward lp.mhesa (zSubBatch zx.1 (freqAttn lp.K zx.1)) false)).map
        (layerNormMat lp.postLN)) bsz n :=
    map_length_preserving_zshape (layerNormMat_length lp.postLN) hz2
  have hxNew : BatchRect (levelForward lp.level zx.2 (freqAttn lp.K zx.1)
      (mhesaForward lp.mhesa (zSubBatch zx.1 (freqAttn lp.K zx.1)) false)) bsz n c :=
    levelForward_rect lp.level hn hx hlg hW
  simp only [encoderLayerStep]
  rcases lp.ffBlock with _ | fb
  · exact ⟨hz3, hxNew⟩
  · exact ⟨map_length_preserving_zshape (ffBlockMat_length fb) hz3, hxNew⟩

lemma embedForwardOne_length (p : EmbedParams) (mat : List (List ℝ)) :
    (embedForwardOne p mat).length = mat.length + 2 * (p.k / 2) + 1 - p.k := by
  simp [embedForwardOne]

lemma foldl_encoder_shape {bsz n c : ℕ} (hn : 0 < n) (hn2 : n % 2 = 0) :
    ∀ ls : List EncoderLayerParams, (∀ lp ∈ ls, lp.level.toSeasonalW.length = c) →
      ∀ zx : List (List (List ℝ)) × List (List (List ℝ)),
        ZShape zx.1 bsz n → BatchRect zx.2 bsz n c →
        ZShape (ls.foldl (fun acc lp => encoderLayerStep lp acc) zx).1 bsz n ∧
          BatchRect (ls.foldl (fun acc lp => encoderLayerStep lp acc) zx).2 bsz n c := by
  intro ls
  induction ls with
  | nil =>
    intro _ zx hz hx
    exact ⟨hz, hx⟩
  | cons lp rest ih =>
    intro hW zx hz hx
    rw [List.foldl_cons]
    have hstep := encoderLayerStep_shape lp hn hn2 (hW lp (List.mem_cons_self _ _)) hz hx
    exact ih (fun q hq => hW q (List.mem_cons_of_mem _ hq)) _ hstep.1 hstep.2

lemma replicate_getD {α : Type} (a : α) {steps i : ℕ} (hi : i < steps) (d : α) :
    (List.replicate steps a).getD i d = a := by
  rw [List.getD_eq_getElem _ d (by simpa using hi)]
  exact List.getElem_replicate _ _

/-- C1: for every setting of MHESA's parameters and every input tensor,
`MHESA.forward` with `naive = true` (gather + tril quadratic path) and with
`naive = false` (FFT path) produce identical outputs: the two paths compute
the same smoothing operator. -/
theorem C1_mhesa_naive_and_fft_paths_agree (p : MHESAParams)
    (x : List (List (List ℝ))) :
    mhesaForward p x true = mhesaForward p x false := by
  unfold mhesaForward
  exact List.map_congr_left fun mat _ => mhesaForwardOne_true_eq_false p mat

lemma levelForwardOne_ignores_growth (p : LevelParams)
    (x g g' s : List (List ℝ)) :
    levelForwardOne p x g s = levelForwardOne p x g' s := by
  simp only [levelForwardOne]

/-- C3 (code bug): `Level.forward` never uses its `latent_growth` argument:
the bound variables `growth = to_growth(latent_growth)` and
`growth_smoothing_weights` are dead, and the "growth term" is
`conv1d_fft(x, Aes_weights)`.  The output is therefore identical for any
two growth latents, contradicting the claimed dependence on
`to_growth(latent_growth)`. -/
theorem C3_level_forward_ignores_latent_growth (p : LevelParams)
    (x g g' s : List (List (List ℝ))) :
    levelForward p x g s = levelForward p x g' s := by
  unfold levelForward
  apply List.map_congr_left
  intro b _
  exact levelForwardOne_ignores_growth p _ _ _ _

/-- C9: the decay coefficient used in weight construction, in `MHESA` and in
`Level`, is the sigmoid of the raw learned parameter, and the sigmoid of
every real number lies strictly between 0 and 1, so out-of-range decay
coefficients are unreachable in every forward pass. -/
theorem C9_sigmoid_decay_coefficient_in_unit_interval (a : ℝ) :
    0 < sigmoid a ∧ sigmoid a < 1 := by
  unfold sigmoid
  have hexp : 0 < Real.exp (-a) := Real.exp_pos (-a)
  constructor
  · positivity
  · rw [div_lt_one (by positivity)]
    linarith

set_option linter.unusedVariables false in
/-- C10: for every layer count, the `is_last_layer` test
`(ind - 1) == layers` of `ETSFormer.__init__` is false for every index
`ind in range(layers)`, so every constructed encoder layer — including the
last one — receives a feed-forward block (the `None` branch is
unreachable), and the feed-forward block is therefore applied in every
layer of every forward pass. -/
theorem C10_feedforward_slot_never_none (layers : ℕ)
    (mk : ℕ → EncoderLayerParams) (mkFF : ℕ → FFBlockParams) (h : 1 ≤ layers) :
    (∀ ind : ℕ, ind < layers → ¬ isLastLayer (ind : ℤ) (layers : ℤ)) ∧
      ∀ lp ∈ mkEncoderLayers layers mk mkFF, lp.ffBlock.isSome = true := by
  constructor
  · intro ind hind
    unfold isLastLayer
    omega
  · intro lp hlp
    unfold mkEncoderLayers at hlp
    obtain ⟨ind, hind, rfl⟩ := List.mem_map.mp hlp
    have hind' : ind < layers := List.mem_range.mp hind
    simp only [ffBlockSlot]
    rw [if_pos]
    · rfl
    · unfold isLastLayer
      omega

theorem C10_witness :
    1 ≤ 2 ∧
      ((∀ ind : ℕ, ind < 2 → ¬ isLastLayer (ind : ℤ) (2 : ℤ)) ∧
        ∀ lp ∈ mkEncoderLayers 2 (fun _ => trivialEncoderLayer)
          (fun _ => trivialFFBlock), lp.ffBlock.isSome = true) :=
  ⟨by decide, C10_feedforward_slot_never_none 2 (fun _ => trivialEncoderLayer)
    (fun _ => trivialFFBlock) (by decide)⟩

/-- C7: the per-head decay weight vector for time length `n` is
`alpha * (1 - alpha) ^ k` with `k` running over reversed time indices; in
particular for coefficient `1/2` and time length `4` it equals
`[1/2 * (1/2)^3, 1/2 * (1/2)^2, 1/2 * (1/2)^1, 1/2 * (1/2)^0]` in time
order, the most recent step weighted by the coefficient itself. -/
theorem C7_smoothing_weights_reversed_geometric_decay :
    smoothingWeights (1 / 2 : ℝ) 4 =
      [1 / 2 * (1 / 2) ^ 3, 1 / 2 * (1 / 2) ^ 2, 1 / 2 * (1 / 2) ^ 1,
        1 / 2 * (1 / 2) ^ 0] ∧
      ∀ (a : ℝ) (n : ℕ), smoothingWeights a n =
        (List.range n).map fun k => a * (1 - a) ^ (n - 1 - k) := by
  constructor
  · norm_num [smoothingWeights, List.range_succ]
  · intro a n
    apply List.ext_getElem
    · simp [smoothingWeights]
    · intro k h1 h2
      simp only [smoothingWeights, List.getElem_map, List.getElem_reverse,
        List.getElem_range, List.length_reverse, List.length_range]

/-- C8 (counterexample): the claim's gather formula `(t - s - 1) mod n` at
row `t = 2`, column `s = 0`, `n = 3` selects kernel entry `1` (value `20`),
but the matrix built by `naive_Aes` holds kernel entry `(s - t - 1) mod n =
0` (value `10`) there. -/
theorem C8_counterexample :
    naiveWeightsMatrix [(10 : ℝ), 20, 30] 3 2 0 ≠
      [(10 : ℝ), 20, 30].getD ((((2 : ℤ) - (0 + 1)) % (3 : ℤ)).toNat) 0 := by
  have hlhs : naiveWeightsMatrix [(10 : ℝ), 20, 30] 3 2 0 = 10 := by
    unfold naiveWeightsMatrix gatherIndex
    norm_num
  have hrhs : [(10 : ℝ), 20, 30].getD ((((2 : ℤ) - (0 + 1)) % (3 : ℤ)).toNat) 0 = 20 := by
    norm_num
  rw [hlhs, hrhs]
  norm_num

/-- C8 (amended): in `MHESA.naive_Aes`, the gathered weight matrix entry at
row `t` and column `s` is the kernel entry at index `(s - t - 1) mod n`
(not `(t - s - 1) mod n`), which for the surviving, lower-triangular
entries `s ≤ t` resolves to index `n - 1 - (t - s)`; the tril masking
zeroes every entry above the diagonal, so the naive output at time `t` is a
weighted sum of inputs at times `s ≤ t` only. -/
theorem C8_naive_gather_index_and_causality :
    (∀ (w : List ℝ) (n t s : ℕ), t < n → s < n →
      naiveWeightsMatrix w n t s =
        if s ≤ t then w.getD (n - 1 - (t - s)) 0 else 0) ∧
      ∀ (x w : List ℝ) (t : ℕ), t < x.length →
        (naiveAesSeries x w).getD t 0 =
          ∑ s ∈ Finset.range (t + 1),
            w.getD (x.length - 1 - (t - s)) 0 * x.getD s 0 := by
  constructor
  · intro w n t s ht hs
    unfold naiveWeightsMatrix
    by_cases hst : s ≤ t
    · rw [if_pos hst, if_pos hst, gatherIndex_eq_of_le ht hst]
      congr 1
      omega
    · rw [if_neg hst, if_neg hst]
  · intro x w t ht
    unfold naiveAesSeries
    rw [getD_map_range ht]
    have hrestrict : ∑ s ∈ Finset.range x.length,
        naiveWeightsMatrix w x.length t s * x.getD s 0
        = ∑ s ∈ Finset.range (t + 1),
            naiveWeightsMatrix w x.length t s * x.getD s 0 := by
      symm
      apply Finset.sum_subset (Finset.range_subset.mpr (by omega))
      intro s hsn hst
      have hst' : ¬ s ≤ t := by
        simp only [Finset.mem_range] at hst
        omega
      simp [naiveWeightsMatrix, hst']
    rw [hrestrict]
    refine Finset.sum_congr rfl fun s hs => ?_
    have hs' : s ≤ t := by
      have := Finset.mem_range.mp hs
      omega
    rw [naiveWeightsMatrix, if_pos hs', gatherIndex_eq_of_le ht hs']
    congr 2
    omega

theorem C8_witness :
    ((2 : ℕ) < 3 ∧ (1 : ℕ) < 3 ∧ (1 : ℕ) < 2) ∧
      (naiveWeightsMatrix [(10 : ℝ), 20, 30] 3 2 1 =
        if 1 ≤ 2 then [(10 : ℝ), 20, 30].getD (3 - 1 - (2 - 1)) 0 else 0) ∧
      (naiveAesSeries [(5 : ℝ), 6] [(7 : ℝ), 8]).getD 1 0 =
        ∑ s ∈ Finset.range (1 + 1),
          [(7 : ℝ), 8].getD (([(5 : ℝ), 6] : List ℝ).length - 1 - (1 - s)) 0 *
            [(5 : ℝ), 6].getD s 0 :=
  ⟨⟨by decide, by decide, by decide⟩,
    C8_naive_gather_index_and_causality.1 [(10 : ℝ), 20, 30] 3 2 1 (by decide) (by decide),
    C8_naive_gather_index_and_causality.2 [(5 : ℝ), 6] [(7 : ℝ), 8] 1 (by norm_num)⟩

/-- C2 (amended): for a kernel of the same length as the signal — the only
shape this repository ever passes — `conv1d_fft` equals the direct causal
reference convolution, and the chosen transform length is at least
`N + M - 1`.  (For kernels shorter than the signal the roll-and-select
alignment shifts the output, see the counterexample.) -/
theorem C2_conv1d_fft_matches_causal_reference_for_square_kernels
    (x w : List ℝ) (h : w.length = x.length) :
    conv1d_fft x w = causalRef x w ∧
      x.length + w.length - 1 ≤ nextFastLen (x.length + w.length - 1) := by
  refine ⟨?_, nextFastLen_ge _⟩
  rw [conv1d_fft_eq_naiveSeries x w h]
  unfold naiveAesSeries causalRef
  apply List.map_congr_left
  intro t htmem
  have ht : t < x.length := List.mem_range.mp htmem
  have hmin : min t (w.length - 1) + 1 = t + 1 := by omega
  rw [hmin]
  have hrestrict : ∑ s ∈ Finset.range x.length,
      naiveWeightsMatrix w x.length t s * x.getD s 0
      = ∑ s ∈ Finset.range (t + 1),
          naiveWeightsMatrix w x.length t s * x.getD s 0 := by
    symm
    apply Finset.sum_subset (Finset.range_subset.mpr (by omega))
    intro s hsn hst
    have hst' : ¬ s ≤ t := by
      simp only [Finset.mem_range] at hst
      omega
    simp [naiveWeightsMatrix, hst']
  rw [hrestrict]
  have hreflect : ∑ k ∈ Finset.range (t + 1),
      w.getD (w.length - 1 - k) 0 * x.getD (t - k) 0
      = ∑ s ∈ Finset.range (t + 1),
          w.getD (w.length - 1 - (t + 1 - 1 - s)) 0 * x.getD (t - (t + 1 - 1 - s)) 0 :=
    (Finset.sum_range_reflect
      (fun k => w.getD (w.length - 1 - k) 0 * x.getD (t - k) 0) (t + 1)).symm
  rw [hreflect]
  refine Finset.sum_congr rfl fun s hs => ?_
  have hs' : s ≤ t := by
    have := Finset.mem_range.mp hs
    omega
  rw [naiveWeightsMatrix, if_pos hs', gatherIndex_eq_of_le ht hs']
  have h1 : w.length - 1 - (t + 1 - 1 - s) = x.length + s - (t + 1) := by omega
  have h2 : t - (t + 1 - 1 - s) = s := by omega
  rw [h1, h2]

theorem C2_witness :
    (([(5 : ℝ), 7, 9] : List ℝ).length = ([(1 : ℝ), 2, 3] : List ℝ).length) ∧
      (conv1d_fft [(1 : ℝ), 2, 3] [(5 : ℝ), 7, 9] =
          causalRef [(1 : ℝ), 2, 3] [(5 : ℝ), 7, 9] ∧
        ([(1 : ℝ), 2, 3] : List ℝ).length + ([(5 : ℝ), 7, 9] : List ℝ).length - 1 ≤
          nextFastLen
            (([(1 : ℝ), 2, 3] : List ℝ).length +
              ([(5 : ℝ), 7, 9] : List ℝ).length - 1)) :=
  ⟨rfl, C2_conv1d_fft_matches_causal_reference_for_square_kernels
    [(1 : ℝ), 2, 3] [(5 : ℝ), 7, 9] rfl⟩

/-- C2 (counterexample): for a kernel shorter than the signal the claim
fails: with `X = [1, 2]` and `W = [1]` the fast length is `2` and the
roll-and-select alignment returns `[2, 1]`, while the direct causal
reference convolution returns `[1, 2]`. -/
theorem C2_counterexample :
    conv1d_fft [(1 : ℝ), 2] [(1 : ℝ)] ≠ causalRef [(1 : ℝ), 2] [(1 : ℝ)] := by
  have hcorr : conv1d_fftCorr [(1 : ℝ), 2] [(1 : ℝ)] = [2, 1] := by
    unfold conv1d_fftCorr
    norm_num [List.range_succ, Finset.sum_range_succ, nextFastLen]
  have hcaus : causalRef [(1 : ℝ), 2] [(1 : ℝ)] = [1, 2] := by
    unfold causalRef
    norm_num [List.range_succ, Finset.sum_range_succ]
  rw [conv1d_fft_eq_corr _ _ (by norm_num), hcorr, hcaus]
  intro hcontra
  have hh := congrArg (fun l : List ℝ => l.getD 0 0) hcontra
  norm_num at hh

lemma freqAttnSeries_length (K : ℕ) (x : List ℝ) :
    (freqAttnSeries K x).length = 2 * (x.length / 2) := by
  simp [freqAttnSeries, irfft, rfft]

/-- C5 (counterexample): at odd time length the inverse transform's default
length `2 * (bins - 1)` is one short of the input: a length-3 input yields
a length-2 output. -/
theorem C5_counterexample :
    (freqAttnMat 4 [[(0 : ℝ)], [0], [0]]).length ≠
      ([[(0 : ℝ)], [0], [0]] : List (List ℝ)).length := by
  rw [freqAttnMat_length]
  norm_num

/-- C5 (amended): the output of `FrequencyAttention.forward` has time
length `2 * (n / 2)` (the input length rounded down to even), because
`irfft` is called without an explicit length and defaults to
`2 * (bins - 1)`; in particular the round trip is length-preserving exactly
when the input time length is even. -/
theorem C5_freq_attention_output_length (K : ℕ) (x : List ℝ) (z : List (List ℝ)) :
    (freqAttnSeries K x).length = 2 * (x.length / 2) ∧
      (freqAttnMat K z).length = 2 * (z.length / 2) ∧
      (Even z.length → (freqAttnMat K z).length = z.length) := by
  refine ⟨freqAttnSeries_length K x, freqAttnMat_length K z, fun heven => ?_⟩
  rw [freqAttnMat_length]
  obtain ⟨m, hm⟩ := heven
  omega

theorem C5_witness :
    Even ([[(0 : ℝ)], [0]] : List (List ℝ)).length ∧
      (freqAttnMat 4 [[(0 : ℝ)], [0]]).length = ([[(0 : ℝ)], [0]] : List (List ℝ)).length :=
  ⟨by decide, (C5_freq_attention_output_length 4 [] [[(0 : ℝ)], [0]]).2.2 (by decide)⟩

/-- C6: for a well-shaped input batch (`bsz` matrices of `n` time rows by
`c` feature channels, `n` positive and even, odd embedding kernel so the
embedding preserves the time length, and each layer's seasonal projection
producing `c` channels — the shape constraints under which the source's
tensor operations are defined at all), `ETSFormer.forward` returns a batch
of `bsz` matrices of shape `num_steps_forecast × c`, and the output is
constant along the forecast-step dimension, because the decoder broadcasts
the last level row across the horizon. -/
theorem C6_etsformer_forecast_shape_and_flat (p : ETSFormerParams)
    (x : List (List (List ℝ))) (bsz n c steps : ℕ)
    (hx : BatchRect x bsz n c) (hn : 0 < n) (hn2 : n % 2 = 0)
    (hk : p.embed.k % 2 = 1)
    (hW : ∀ lp ∈ p.encoderLayers, lp.level.toSeasonalW.length = c) :
    (etsFormerForward p x steps).length = bsz ∧
      (∀ mat ∈ etsFormerForward p x steps, mat.length = steps ∧
        ∀ r ∈ mat, r.length = c) ∧
      ∀ mat ∈ etsFormerForward p x steps, ∀ i j : ℕ, i < steps → j < steps →
        mat.getD i [] = mat.getD j [] := by
  have hz0 : ZShape (x.map (embedForwardOne p.embed)) bsz n := by
    refine ⟨by simp [hx.1], ?_⟩
    intro mat hmat
    obtain ⟨m0, hm0, rfl⟩ := List.mem_map.mp hmat
    rw [embedForwardOne_length]
    have hlen := (hx.2 _ hm0).1
    omega
  have hfold := foldl_encoder_shape hn hn2 p.encoderLayers hW
    (x.map (embedForwardOne p.embed), x) hz0 hx
  simp only [etsFormerForward]
  have hXr : BatchRect (p.encoderLayers.foldl
      (fun acc lp => encoderLayerStep lp acc)
      (x.map (embedForwardOne p.embed), x)).2 bsz n c := hfold.2
  refine ⟨by simp [levelStackForward, hXr.1], ?_, ?_⟩
  · intro mat hmat
    unfold levelStackForward at hmat
    obtain ⟨m0, hm0, rfl⟩ := List.mem_map.mp hmat
    refine ⟨by simp, ?_⟩
    intro r hr
    have hrr := List.eq_of_mem_replicate hr
    subst hrr
    have hm0r := hXr.2 _ hm0
    have hlast : m0.getD (m0.length - 1) [] ∈ m0 :=
      getD_mem_of_lt (by rw [hm0r.1]; omega) []
    exact hm0r.2 _ hlast
  · intro mat hmat i j hi hj
    unfold levelStackForward at hmat
    obtain ⟨m0, _, rfl⟩ := List.mem_map.mp hmat
    rw [replicate_getD _ hi, replicate_getD _ hj]

theorem C6_witness :
    (BatchRect [[[(1 : ℝ)], [2]]] 1 2 1 ∧ 0 < 2 ∧ 2 % 2 = 0 ∧
      tinyETSFormer.embed.k % 2 = 1 ∧
      ∀ lp ∈ tinyETSFormer.encoderLayers, lp.level.toSeasonalW.length = 1) ∧
      ((etsFormerForward tinyETSFormer [[[(1 : ℝ)], [2]]] 3).length = 1 ∧
        (∀ mat ∈ etsFormerForward tinyETSFormer [[[(1 : ℝ)], [2]]] 3,
          mat.length = 3 ∧ ∀ r ∈ mat, r.length = 1) ∧
        ∀ mat ∈ etsFormerForward tinyETSFormer [[[(1 : ℝ)], [2]]] 3,
          ∀ i j : ℕ, i < 3 → j < 3 → mat.getD i [] = mat.getD j []) := by
  have hx : BatchRect [[[(1 : ℝ)], [2]]] 1 2 1 := by
    refine ⟨rfl, ?_⟩
    intro mat hmat
    rw [List.mem_singleton] at hmat
    subst hmat
    refine ⟨rfl, ?_⟩
    intro r hr
    simp only [List.mem_cons, List.mem_singleton, List.not_mem_nil, or_false] at hr
    rcases hr with rfl | rfl
    · rfl
    · rfl
  have hW : ∀ lp ∈ tinyETSFormer.encoderLayers, lp.level.toSeasonalW.length = 1 := by
    intro lp hlp
    simp only [tinyETSFormer, List.mem_singleton] at hlp
    subst hlp
    rfl
  exact ⟨⟨hx, by decide, by decide, by decide, hW⟩,
    C6_etsformer_forecast_shape_and_flat tinyETSFormer [[[(1 : ℝ)], [2]]] 1 2 1 3
      hx (by decide) (by decide) (by decide) hW⟩

lemma expUnit_two_pow (m : ℤ) : expUnit 2 m = (-1 : ℂ) ^ m := by
  rw [expUnit_eq_zpow]
  congr 1
  unfold expUnit
  rw [show (2 * (Real.pi : ℂ) * Complex.I * ((1 : ℤ) : ℂ) / ((2 : ℕ) : ℂ)) =
    (Real.pi : ℂ) * Complex.I by push_cast; ring]
  exact Complex.exp_pi_mul_I

lemma rfft_eval1 : rfft [(1 : ℝ), -3] 2 = [(-2 : ℂ), 4] := by
  unfold rfft dftPoint
  norm_num [List.range_succ, Finset.sum_range_succ, expUnit_two_pow]

lemma rfft_eval2 : rfft [(-1 : ℝ), 1] 2 = [(0 : ℂ), -2] := by
  unfold rfft dftPoint
  norm_num [List.range_succ, Finset.sum_range_succ, expUnit_two_pow]

lemma amp_eval1 : ([(-2 : ℂ), 4] : List ℂ).map (fun z => Complex.abs z) = [2, 4] := by
  norm_num [show ((-2 : ℂ)) = (((-2 : ℝ)) : ℂ) by norm_num,
    show ((4 : ℂ)) = (((4 : ℝ)) : ℂ) by norm_num, Complex.abs_ofReal]

lemma amp_eval2 : ([(0 : ℂ), -2] : List ℂ).map (fun z => Complex.abs z) = [0, 2] := by
  norm_num [show ((-2 : ℂ)) = (((-2 : ℝ)) : ℂ) by norm_num, Complex.abs_ofReal]

lemma topk_eval1 : topKIndices 1 [(2 : ℝ), 4] = [1] := by
  norm_num [topKIndices, topKAux, argmaxIdx, List.range_succ]

lemma topk_eval2 : topKIndices 1 [(0 : ℝ), 2] = [1] := by
  norm_num [topKIndices, topKAux, argmaxIdx, List.range_succ]

lemma scatter_eval1 : scatterByIndex [1] [(-2 : ℂ), 4] 2 = [0, -2] := by
  norm_num [scatterByIndex, List.range_succ]

lemma scatter_eval2 : scatterByIndex [1] [(0 : ℂ), -2] 2 = [0, 0] := by
  norm_num [scatterByIndex, List.range_succ]

lemma irfft_eval1 : irfft [(0 : ℂ), -2] 2 = [-1, 1] := by
  unfold irfft
  norm_num [List.range_succ, Finset.sum_range_succ, expUnit_two_pow]

lemma irfft_eval2 : irfft [(0 : ℂ), 0] 2 = [0, 0] := by
  unfold irfft
  norm_num [List.range_succ, Finset.sum_range_succ, expUnit_two_pow]

lemma freqAttnSeries_eval1 : freqAttnSeries 1 [(1 : ℝ), -3] = [-1, 1] := by
  simp only [freqAttnSeries]
  rw [show ([(1 : ℝ), -3] : List ℝ).length = 2 from rfl]
  rw [rfft_eval1]
  rw [show ([(-2 : ℂ), 4] : List ℂ).length = 2 from rfl]
  rw [amp_eval1, topk_eval1, scatter_eval1]
  norm_num [irfft_eval1]

lemma freqAttnSeries_eval2 : freqAttnSeries 1 [(-1 : ℝ), 1] = [0, 0] := by
  simp only [freqAttnSeries]
  rw [show ([(-1 : ℝ), 1] : List ℝ).length = 2 from rfl]
  rw [rfft_eval2]
  rw [show ([(0 : ℂ), -2] : List ℂ).length = 2 from rfl]
  rw [amp_eval2, topk_eval2, scatter_eval2]
  norm_num [irfft_eval2]

/-- C4 (code bug): `FrequencyAttention.forward` is not idempotent as
written.  With `K = 1` on the series `[1, -3]` the spectrum is `[-2, 4]`
and the top-1 bin is bin 1, but `scatter(1, topk_amp_indices, freqs)`
writes `freqs[0] = -2` there (torch scatter writes the `j`-th source row at
the `j`-th selected position, not the selected bin's own value), so the
first pass returns `[-1, 1]`; the second pass selects bin 1 of the new
spectrum `[0, -2]` and writes `freqs[0] = 0` there, returning `[0, 0]`. -/
theorem C4_freq_attention_not_idempotent_on_code :
    freqAttnSeries 1 (freqAttnSeries 1 [(1 : ℝ), -3]) ≠
      freqAttnSeries 1 [(1 : ℝ), -3] := by
  rw [freqAttnSeries_eval1, freqAttnSeries_eval2]
  intro hcontra
  have hh := congrArg (fun l : List ℝ => l.getD 0 0) hcontra
  norm_num at hh
